import Mathlib

/-!
# Verification of the C-Poker-AI decision engine

A shallow embedding, in Lean 4, of the core of the C-Poker-AI repository:
the tagged `Action` value and its string encoding (`action.c`), and the
Monte Carlo decision engine (`pokerai.c`): the per-game deck pool, the
swap-with-last card `draw`, the single-game simulator, the worker loop
with its batched deadline check, the aggregation of worker tallies, and
the threshold decision policy of `GetBestAction`.

Machine integers are modelled as `Int`/`Nat` (no value in the engine can
approach the width of a C `int`: card identifiers are 1..52, tallies are
bounded by simulation counts).  The C `double` used for the win
probability is modelled by `FVal`: an exact rational together with the
two IEEE-754 special values (`nan`, `inf`) that the expression
`(double) games_won / games_simulated` can produce.  The fractions
involved (`w / n` against the constants `0.5` and `0.25`, both exactly
representable) order the same way in IEEE-754 doubles as in ℚ, because
rounding to nearest never moves a value across a representable bound,
so exact rational comparison is faithful.
-/

namespace CPokerAI

/-! ## Action (`action.c`) -/

/-- The `ActionType` enum of `action.h`: the sentinel unset state and the
three real actions. -/
inductive ActionType where
  | ACTION_UNSET
  | FOLD
  | CALL
  | BET
deriving DecidableEq

/-- The `Action` struct: a type tag and a bet amount.  The `string`
buffer of the C struct is represented by the result of
`ActionGetString` rather than stored. -/
structure Action where
  type : ActionType
  amount : ℤ
deriving DecidableEq

/-- `ActionSetFold` of `action.c`. -/
def ActionSetFold (_a : Action) : Action :=
  { type := ActionType.FOLD, amount := 0 }

/-- `ActionSetCall` of `action.c`. -/
def ActionSetCall (_a : Action) : Action :=
  { type := ActionType.CALL, amount := 0 }

/-- `ActionSetBet` of `action.c`. -/
def ActionSetBet (_a : Action) (amount : ℤ) : Action :=
  { type := ActionType.BET, amount := amount }

/-- `ActionGetString` of `action.c`: the query-string token written into
`action->string`.  The `ACTION_UNSET` case is the `default:` branch of
the C switch, which also writes `action_name=fold`. -/
def ActionGetString (a : Action) : String :=
  match a.type with
  | ActionType.FOLD => "action_name=fold"
  | ActionType.CALL => "action_name=call"
  | ActionType.BET => "action_name=bet&amount=" ++ toString a.amount
  | ActionType.ACTION_UNSET => "action_name=fold"

/-! ## The win-probability value (`double` in `GetBestAction`) -/

/-- The value of the C `double` `winprob`: an exact rational, or one of
the IEEE-754 special values that `0.0 / 0.0` (nan) and `w / 0.0` with
`w > 0` (inf) produce. -/
inductive FVal where
  | nan
  | inf
  | val (q : ℚ)
deriving DecidableEq

/-- The C comparison `winprob > c` for a finite constant `c`: both NaN
comparisons are false, `inf > c` is true, and finite values compare
exactly (see the header comment: rounding cannot move `w / n` across
the representable bounds `0.5` and `0.25`). -/
def FVal.gt : FVal → ℚ → Bool
  | FVal.nan, _ => false
  | FVal.inf, _ => true
  | FVal.val q, c => decide (c < q)

/-- The C expression `((double) ai->games_won) / ai->games_simulated`
on the aggregated tallies: IEEE-754 gives NaN for `0.0 / 0.0`, +inf for
a positive numerator over `0.0`, and the (correctly rounded, here
modelled exact) quotient otherwise. -/
def FVal.divNat (w n : ℕ) : FVal :=
  if n = 0 then (if w = 0 then FVal.nan else FVal.inf)
  else FVal.val ((w : ℚ) / (n : ℚ))

/-- The C product `ai->game.stack * winprob` (`int` times `double`,
performed as a `double`). -/
def FVal.scale (stack : ℤ) : FVal → FVal
  | FVal.nan => FVal.nan
  | FVal.inf => FVal.inf
  | FVal.val q => FVal.val (stack * q)

/-- The C cast of the `double` product back to `int`
(`ai->action.amount = ai->game.stack * winprob;`): truncation toward
zero on finite values.  The special values are unreachable on the only
path that performs the cast (the `winprob > 0.5` branch excludes NaN,
and `inf` needs a positive numerator over a zero denominator, which the
tallies cannot produce); they are mapped to 0. -/
def FVal.toInt : FVal → ℤ
  | FVal.nan => 0
  | FVal.inf => 0
  | FVal.val q => if 0 ≤ q then ⌊q⌋ else ⌈q⌉

/-! ## Decision policy (`GetBestAction`, threshold part) -/

/-- The threshold policy of `GetBestAction` (`pokerai.c` lines 202-214),
acting on the AI's stored action: `winprob > 0.5` sets `BET` with amount
`stack * winprob` truncated to `int`; otherwise `winprob > 0.25` sets
`CALL` (amount untouched, as in the C); otherwise `FOLD`. -/
def decideAction (winprob : FVal) (stack : ℤ) (a : Action) : Action :=
  if winprob.gt (1/2) then
    { type := ActionType.BET, amount := (winprob.scale stack).toInt }
  else if winprob.gt (1/4) then
    { a with type := ActionType.CALL }
  else
    { a with type := ActionType.FOLD }

/-- `GetBestAction` after the join of the Monte Carlo threads
(`pokerai.c` lines 188-216), as a function of the aggregated tallies:
computes `winprob = games_won / games_simulated` and applies the
threshold policy.  (The C function then returns
`ActionGetString(&ai->action)`.) -/
def GetBestAction (games_won games_simulated : ℕ) (stack : ℤ) (a : Action) : Action :=
  decideAction (FVal.divNat games_won games_simulated) stack a

/-! ## Game state and AI state (`pokerai.h` / `game.h` interface) -/

/-- The `GameState` fields that the engine core reads.  `deck` is the
52-entry availability mask `game->deck`: entry `i` is true iff card
`i + 1` is still in the deck (not yet seen/used).  Card identifiers are
1-indexed, as in the C (`deck[decksize] = i + 1`). -/
structure GameState where
  hand : List ℕ
  community : List ℕ
  deck : List Bool
  num_opponents : ℕ
  stack : ℤ
  your_turn : Bool
deriving DecidableEq

/-- The `PokerAI` fields that the sequential core reads and writes
(threads, mutex, and logging are not part of the state the claims
mention). -/
structure PokerAI where
  num_threads : ℕ
  timeout : ℕ
  game : GameState
  action : Action
  games_won : ℕ
  games_simulated : ℕ
deriving DecidableEq

/-- Modelled from the spec: `SetGameState` (in `game.c`, whose source is
not part of the embedded core) decodes the inbound JSON value and
replaces the engine's `GameState` wholesale — "GameState (owned by the
engine, replaced wholesale on each update)", with a "total,
side-effect-free decoder".  `J` is the type of the raw inbound value and
`decode` the decoder. -/
def SetGameState {J : Type} (decode : J → GameState) (_old : GameState) (j : J) : GameState :=
  decode j

/-- `UpdateGameState` of `pokerai.c`: resets the action tag to
`ACTION_UNSET` (only the tag — the C writes `ai->action.type` and leaves
`amount` stale) and replaces the game state via `SetGameState`. -/
def UpdateGameState {J : Type} (decode : J → GameState) (ai : PokerAI) (j : J) : PokerAI :=
  { ai with
      action := { ai.action with type := ActionType.ACTION_UNSET },
      game := SetGameState decode ai.game j }

/-- `MyTurn` of `pokerai.c`. -/
def MyTurn (ai : PokerAI) : Bool :=
  ai.game.your_turn

/-! ## Card deck sampler (`draw`) -/

/-- `NUM_DECK`: the `game->deck` mask has 52 entries (the local pool in
`SimulateSingleGame` is `int deck[52]`). -/
def NUM_DECK : ℕ := 52

/-- `NUM_HAND`: hole cards per player (Texas Hold'em constant from the
game header). -/
def NUM_HAND : ℕ := 2

/-- `NUM_COMMUNITY`: community cards per game (Texas Hold'em constant
from the game header). -/
def NUM_COMMUNITY : ℕ := 5

/-- `draw` of `pokerai.c`: `index = rand() % size`; return `deck[index]`,
overwrite it with the last element (`deck[index] = deck[size - 1]`) and
shrink the pool by one.  `r` is the value returned by `rand()`.  The
pool is a `List` whose length is the C `*psize`. -/
def draw (deck : List ℕ) (r : ℕ) : ℕ × List ℕ :=
  let index := r % deck.length
  let value := deck.getD index 0
  (value, (deck.set index (deck.getLast?.getD 0)).dropLast)

/-- `n` successive calls to `draw` (no insertions in between), fed by
the `rand()` stream `rng` starting at stream position `k`: returns the
drawn cards in order, the remaining pool, and the next stream
position. -/
def drawMany (deck : List ℕ) (rng : ℕ → ℕ) (k : ℕ) : ℕ → List ℕ × List ℕ × ℕ
  | 0 => ([], deck, k)
  | n + 1 =>
    let d1 := draw deck (rng k)
    let rest := drawMany d1.2 rng (k + 1) n
    (d1.1 :: rest.1, rest.2)

/-! ## Single-game simulator (`SimulateSingleGame`) -/

/-- Outcome code `AI_WIN` of `pokerai.c`. -/
def AI_WIN : ℕ := 1

/-- Outcome code `AI_LOSE` of `pokerai.c`. -/
def AI_LOSE : ℕ := 0

/-- The deck-pool materialization at the top of `SimulateSingleGame`:
for each `i` in `0..NUM_DECK-1` with `game->deck[i]` set, append the
1-indexed card `i + 1`. -/
def simDeck (mask : List Bool) : List ℕ :=
  ((List.range NUM_DECK).filter (fun i => mask.getD i false)).map (fun i => i + 1)

/-- `BestOpponentHand` of `pokerai.c`: running maximum of
`GetHandValue(opponents[i])`, starting from `max = 0` and replacing it
whenever `score > max`.  `eval` is the external hand evaluator
`GetHandValue`. -/
def BestOpponentHand (eval : List ℕ → ℤ) (opponents : List (List ℕ)) : ℤ :=
  opponents.foldl (fun m h => if eval h > m then eval h else m) 0

/-- The community-card completion of `SimulateSingleGame`: the known
community cards followed by draws filling the remaining
`NUM_COMMUNITY - communitysize` slots. -/
def simCommunity (g : GameState) (rng : ℕ → ℕ) : List ℕ :=
  g.community ++ (drawMany (simDeck g.deck) rng 0 (NUM_COMMUNITY - g.community.length)).1

/-- The pool and stream position left after the community completion. -/
def simDeckAfterCommunity (g : GameState) (rng : ℕ → ℕ) : List ℕ × ℕ :=
  let r := drawMany (simDeck g.deck) rng 0 (NUM_COMMUNITY - g.community.length)
  (r.2.1, r.2.2)

/-- The opponent-dealing loop of `SimulateSingleGame`: each opponent
draws `NUM_HAND` private cards and is paired with the completed
community cards. -/
def dealOpponents (deck : List ℕ) (rng : ℕ → ℕ) (k : ℕ) (community : List ℕ) :
    ℕ → List (List ℕ) × List ℕ × ℕ
  | 0 => ([], deck, k)
  | m + 1 =>
    let p := drawMany deck rng k NUM_HAND
    let rest := dealOpponents p.2.1 rng p.2.2 community m
    ((p.1 ++ community) :: rest.1, rest.2)

/-- The opponent hands dealt in one run of `SimulateSingleGame`. -/
def simOpponents (g : GameState) (rng : ℕ → ℕ) : List (List ℕ) :=
  (dealOpponents (simDeckAfterCommunity g rng).1 rng (simDeckAfterCommunity g rng).2
    (simCommunity g rng) g.num_opponents).1

/-- The agent's own card array `me` in `SimulateSingleGame`: hole cards
followed by the completed community cards. -/
def agentCards (g : GameState) (rng : ℕ → ℕ) : List ℕ :=
  g.hand ++ simCommunity g rng

/-- `SimulateSingleGame` of `pokerai.c` (with `rand()` modelled by the
stream `rng`, and `GetHandValue` by `eval`): deal, score, and return
`AI_WIN` iff `myscore > bestopponent`. -/
def SimulateSingleGame (eval : List ℕ → ℤ) (g : GameState) (rng : ℕ → ℕ) : ℕ :=
  let myscore := eval (agentCards g rng)
  let bestopponent := BestOpponentHand eval (simOpponents g rng)
  if myscore > bestopponent then AI_WIN else AI_LOSE

/-! ## Monte Carlo worker (`SimulateGames`) and aggregation -/

/-- The observable outcome of one worker's `while (1)` loop. -/
structure WorkerRun where
  simulated : ℕ
  won : ℕ
  exited : Bool
  clockReads : List ℕ
deriving DecidableEq

/-- The worker loop of `SimulateGames` (`pokerai.c` lines 292-306).
`timeUp n` models `GetElapsedTime(&timer) > ai->timeout` as observed at
the iteration whose `simulated` counter is `n` (elapsed time is a
function of how far the loop has run); `result n` models the value
`SimulateSingleGame` returns on iteration `n` (`true` for `AI_WIN`).
The C `&&` short-circuits, so the clock is read only when
`simulated % 1000 == 0`; `clockReads` records the `simulated` values at
which the clock was read, and `exited` whether the loop left via its
`break` (`fuel` bounds the unrolling; an exhausted fuel reports the
tally so far with `exited = false`). -/
def SimulateGames (timeUp : ℕ → Bool) (result : ℕ → Bool) :
    ℕ → ℕ → ℕ → WorkerRun
  | 0, simulated, won => ⟨simulated, won, false, []⟩
  | fuel + 1, simulated, won =>
    if simulated % 1000 = 0 then
      if timeUp simulated then ⟨simulated, won, true, [simulated]⟩
      else
        let rest := SimulateGames timeUp result fuel (simulated + 1)
          (won + if result simulated then 1 else 0)
        { rest with clockReads := simulated :: rest.clockReads }
    else
      SimulateGames timeUp result fuel (simulated + 1)
        (won + if result simulated then 1 else 0)

/-- The aggregation step (`pokerai.c` lines 314-317, under the mutex):
each worker adds its local `(simulated, won)` pair onto the AI's global
`(games_simulated, games_won)` totals. -/
def aggregateTallies (tallies : List (ℕ × ℕ)) : ℕ × ℕ :=
  tallies.foldl (fun acc p => (acc.1 + p.1, acc.2 + p.2)) (0, 0)

/-! ## Theorems -/

/-- C9: the string encoding of a set action is exactly
`action_name=fold` for Fold, `action_name=call` for Call, and
`action_name=bet&amount=<integer>` (decimal amount) for Bet. -/
theorem ActionGetString_encodes (amt : ℤ) :
    ActionGetString { type := ActionType.FOLD, amount := amt } = "action_name=fold"
  ∧ ActionGetString { type := ActionType.CALL, amount := amt } = "action_name=call"
  ∧ ∀ n : ℤ, ActionGetString { type := ActionType.BET, amount := n } =
      "action_name=bet&amount=" ++ toString n :=
  ⟨rfl, rfl, fun _ => rfl⟩

/-- C10: an Action whose type is the sentinel `ACTION_UNSET` (the
`default:` branch of the C switch) is encoded, without failing, as
exactly `action_name=fold`. -/
theorem ActionGetString_unset (amt : ℤ) :
    ActionGetString { type := ActionType.ACTION_UNSET, amount := amt } = "action_name=fold" :=
  rfl

/-- C1: the decision policy maps win probability `p` and a (nonnegative)
stack to: Bet with amount `⌊stack * p⌋` for `p > 0.5`; Call for
`0.25 < p ≤ 0.5` (so `p = 0.5` yields Call, not Bet); Fold for
`p ≤ 0.25` (so `p = 0.25` yields Fold); and `p = 1`, stack `100` yields
Bet(100). -/
theorem decideAction_policy (p : ℚ) (stack : ℤ) (a : Action) (hs : 0 ≤ stack) :
    (1/2 < p →
      decideAction (FVal.val p) stack a =
        { type := ActionType.BET, amount := ⌊(stack : ℚ) * p⌋ })
  ∧ (1/4 < p → p ≤ 1/2 → (decideAction (FVal.val p) stack a).type = ActionType.CALL)
  ∧ (p ≤ 1/4 → (decideAction (FVal.val p) stack a).type = ActionType.FOLD)
  ∧ decideAction (FVal.val 1) 100 a = { type := ActionType.BET, amount := 100 } := by
  refine ⟨fun hp => ?_, fun hp1 hp2 => ?_, fun hp => ?_, ?_⟩
  · have hq : (0 : ℚ) ≤ (stack : ℚ) * p :=
      mul_nonneg (by exact_mod_cast hs) (le_of_lt (lt_trans (by norm_num) hp))
    simp only [decideAction, FVal.gt, decide_eq_true_eq, hp, if_true, FVal.scale, FVal.toInt,
      hq, if_pos]
  · simp only [decideAction, FVal.gt, decide_eq_true_eq, not_lt.mpr hp2, if_false, hp1, if_true]
  · have h2 : ¬ (1/2 : ℚ) < p := not_lt.mpr (le_trans hp (by norm_num))
    have h4 : ¬ (1/4 : ℚ) < p := not_lt.mpr hp
    simp only [decideAction, FVal.gt, decide_eq_true_eq, h2, h4, if_false]
  · simp only [decideAction, FVal.gt, FVal.scale, FVal.toInt]
    norm_num

/-- Witness for C1 at `p = 3/4`, `stack = 100`. -/
theorem decideAction_policy_witness :
    ((1/2 : ℚ) < 3/4 →
      decideAction (FVal.val (3/4)) 100 { type := ActionType.ACTION_UNSET, amount := 0 } =
        { type := ActionType.BET, amount := ⌊((100 : ℤ) : ℚ) * (3/4)⌋ })
  ∧ ((1/4 : ℚ) < 3/4 → (3/4 : ℚ) ≤ 1/2 →
      (decideAction (FVal.val (3/4)) 100 { type := ActionType.ACTION_UNSET, amount := 0 }).type =
        ActionType.CALL)
  ∧ ((3/4 : ℚ) ≤ 1/4 →
      (decideAction (FVal.val (3/4)) 100 { type := ActionType.ACTION_UNSET, amount := 0 }).type =
        ActionType.FOLD)
  ∧ decideAction (FVal.val 1) 100 { type := ActionType.ACTION_UNSET, amount := 0 } =
      { type := ActionType.BET, amount := 100 } :=
  decideAction_policy (3/4) 100 { type := ActionType.ACTION_UNSET, amount := 0 } (by norm_num)

/-- C3 counterexample: with both tallies zero, the C expression
`((double) games_won) / games_simulated` evaluates `0.0 / 0.0`, which is
IEEE-754 NaN — the win probability is not the value 0. -/
theorem winprob_zero_games_is_nan :
    FVal.divNat 0 0 = FVal.nan ∧ FVal.nan ≠ FVal.val 0 :=
  ⟨rfl, by decide⟩

/-- C3 (amended): when the aggregated tallies are `0 / 0`, no error is
raised and no trap occurs — the quotient is the quiet NaN, every NaN
comparison is false, and the resulting action is Fold. -/
theorem GetBestAction_zero_games (stack : ℤ) (a : Action) :
    FVal.divNat 0 0 = FVal.nan
  ∧ (GetBestAction 0 0 stack a).type = ActionType.FOLD :=
  ⟨rfl, rfl⟩

/-- C7: `UpdateGameState` is idempotent — applying it twice with the
same input yields the same `PokerAI` state (in particular the same
`GameState`) as applying it once, and each application (including the
second) resets the action tag to `ACTION_UNSET`. -/
theorem UpdateGameState_idempotent {J : Type} (decode : J → GameState) (ai : PokerAI) (j : J) :
    UpdateGameState decode (UpdateGameState decode ai j) j = UpdateGameState decode ai j
  ∧ (UpdateGameState decode ai j).action.type = ActionType.ACTION_UNSET
  ∧ (UpdateGameState decode (UpdateGameState decode ai j) j).action.type =
      ActionType.ACTION_UNSET :=
  ⟨rfl, rfl, rfl⟩

/-- The worker loop preserves `won ≤ simulated`. -/
lemma SimulateGames_won_le (timeUp result : ℕ → Bool) :
    ∀ (fuel s w : ℕ), w ≤ s →
      (SimulateGames timeUp result fuel s w).won ≤
        (SimulateGames timeUp result fuel s w).simulated := by
  intro fuel
  induction fuel with
  | zero => intro s w h; exact h
  | succ n ih =>
    intro s w h
    simp only [SimulateGames]
    by_cases hmod : s % 1000 = 0
    · simp only [hmod, if_true]
      by_cases ht : timeUp s = true
      · simp only [ht, if_true]; exact h
      · simp only [ht, if_false]
        exact ih (s + 1) (w + if result s then 1 else 0)
          (by split <;> omega)
    · simp only [hmod, if_false]
      exact ih (s + 1) (w + if result s then 1 else 0)
        (by split <;> omega)

/-- The tally aggregation fold preserves `won ≤ played`. -/
lemma aggregate_foldl_le (tallies : List (ℕ × ℕ)) :
    ∀ acc : ℕ × ℕ, acc.2 ≤ acc.1 → (∀ p ∈ tallies, p.2 ≤ p.1) →
      (tallies.foldl (fun acc p => (acc.1 + p.1, acc.2 + p.2)) acc).2 ≤
        (tallies.foldl (fun acc p => (acc.1 + p.1, acc.2 + p.2)) acc).1 := by
  induction tallies with
  | nil => intro acc h _; exact h
  | cons p t ih =>
    intro acc hacc hall
    simp only [List.foldl_cons]
    exact ih (acc.1 + p.1, acc.2 + p.2)
      (Nat.add_le_add hacc (hall p (List.mem_cons_self p t)))
      (fun q hq => hall q (List.mem_cons_of_mem p hq))

/-- C6: every per-worker tally satisfies `games_won ≤ games_played`
(both are non-negative by the `ℕ` representation), and the aggregated
global tally, combined by addition from per-worker tallies satisfying
the invariant, satisfies it as well. -/
theorem tally_invariant (timeUp result : ℕ → Bool) (fuel : ℕ)
    (tallies : List (ℕ × ℕ)) (h : ∀ p ∈ tallies, p.2 ≤ p.1) :
    (SimulateGames timeUp result fuel 0 0).won ≤
      (SimulateGames timeUp result fuel 0 0).simulated
  ∧ (aggregateTallies tallies).2 ≤ (aggregateTallies tallies).1 :=
  ⟨SimulateGames_won_le timeUp result fuel 0 0 (Nat.le_refl 0),
   aggregate_foldl_le tallies (0, 0) (Nat.le_refl 0) h⟩

/-- Witness for C6: a short run that exits at the first check, and two
concrete worker tallies. -/
theorem tally_invariant_witness :
    (SimulateGames (fun _ => true) (fun _ => true) 3 0 0).won ≤
      (SimulateGames (fun _ => true) (fun _ => true) 3 0 0).simulated
  ∧ (aggregateTallies [(5, 3), (2, 2)]).2 ≤ (aggregateTallies [(5, 3), (2, 2)]).1 :=
  tally_invariant (fun _ => true) (fun _ => true) 3 [(5, 3), (2, 2)] (by decide)

/-- Clock reads happen only at multiples of the batch size, and a
`break` exit happens at such a read with the deadline observed
expired — for any starting counter values. -/
lemma SimulateGames_reads_aux (timeUp result : ℕ → Bool) :
    ∀ (fuel s w : ℕ),
      (∀ n ∈ (SimulateGames timeUp result fuel s w).clockReads, n % 1000 = 0)
      ∧ ((SimulateGames timeUp result fuel s w).exited = true →
          (SimulateGames timeUp result fuel s w).simulated % 1000 = 0
          ∧ timeUp (SimulateGames timeUp result fuel s w).simulated = true) := by
  intro fuel
  induction fuel with
  | zero =>
    intro s w
    exact ⟨fun n hn => absurd hn (List.not_mem_nil n), fun h => absurd h (by simp [SimulateGames])⟩
  | succ m ih =>
    intro s w
    simp only [SimulateGames]
    by_cases hmod : s % 1000 = 0
    · simp only [hmod, if_true]
      by_cases ht : timeUp s = true
      · simp only [ht, if_true]
        exact ⟨fun n hn => by simpa [List.mem_singleton.mp hn] using hmod,
               fun _ => ⟨hmod, trivial⟩⟩
      · simp only [ht, if_false]
        refine ⟨fun n hn => ?_, (ih (s + 1) (w + if result s then 1 else 0)).2⟩
        rcases List.mem_cons.mp hn with h | h
        · simpa [h] using hmod
        · exact (ih (s + 1) (w + if result s then 1 else 0)).1 n h
    · simp only [hmod, if_false]
      exact ih (s + 1) (w + if result s then 1 else 0)

/-- C8: the worker reads the clock only on iterations whose completed
count is a multiple of 1000 (the C `&&` short-circuit guards the
`GetElapsedTime` call), and when the loop exits via its `break`, the
exit occurs exactly at such a check with the elapsed time observed past
the timeout. -/
theorem batched_deadline_check (timeUp result : ℕ → Bool) (fuel : ℕ)
    (h : (SimulateGames timeUp result fuel 0 0).exited = true) :
    (∀ n ∈ (SimulateGames timeUp result fuel 0 0).clockReads, n % 1000 = 0)
  ∧ (SimulateGames timeUp result fuel 0 0).simulated % 1000 = 0
  ∧ timeUp (SimulateGames timeUp result fuel 0 0).simulated = true := by
  obtain ⟨hr, he⟩ := SimulateGames_reads_aux timeUp result fuel 0 0
  exact ⟨hr, (he h).1, (he h).2⟩

/-- Witness for C8: a deadline that is already expired at the first
check makes the loop exit at `simulated = 0` with one clock read. -/
theorem batched_deadline_check_witness :
    (∀ n ∈ (SimulateGames (fun _ => true) (fun _ => true) 1 0 0).clockReads, n % 1000 = 0)
  ∧ (SimulateGames (fun _ => true) (fun _ => true) 1 0 0).simulated % 1000 = 0
  ∧ (fun _ => true) (SimulateGames (fun _ => true) (fun _ => true) 1 0 0).simulated = true :=
  batched_deadline_check (fun _ => true) (fun _ => true) 1 rfl

/-- One `draw` returns some element of the pool and leaves exactly the
rest of the pool (as a permutation fact): the pool is a permutation of
the drawn value consed onto the remaining pool. -/
lemma draw_perm (d : List ℕ) (r : ℕ) (hd : d ≠ []) :
    d.Perm ((draw d r).1 :: (draw d r).2) := by
  obtain ⟨L, a, hLa⟩ : ∃ L a, d = L ++ [a] :=
    ⟨d.dropLast, d.getLast hd, (List.dropLast_append_getLast hd).symm⟩
  subst hLa
  show (L ++ [a]).Perm
    ((L ++ [a]).getD (r % (L ++ [a]).length) 0 ::
      ((L ++ [a]).set (r % (L ++ [a]).length) ((L ++ [a]).getLast?.getD 0)).dropLast)
  have hlast : (L ++ [a]).getLast?.getD 0 = a := by
    rw [List.getLast?_concat]; rfl
  have hlen : (L ++ [a]).length = L.length + 1 := by simp
  rw [hlast, hlen]
  generalize hig : r % (L.length + 1) = i
  have hilt : i < L.length + 1 := hig ▸ Nat.mod_lt _ (Nat.succ_pos _)
  rcases Nat.lt_or_ge i L.length with hcase | hcase
  · have hval : (L ++ [a]).getD i 0 = L.get ⟨i, hcase⟩ := by
      rw [List.getD_eq_getElem?_getD, List.getElem?_append_left hcase,
        List.getElem?_eq_getElem hcase]
      rfl
    have hset : (L ++ [a]).set i a = (L.take i ++ a :: L.drop (i + 1)) ++ [a] := by
      rw [List.set_eq_take_cons_drop a (by simp [Nat.lt_succ_of_lt hcase]),
        List.take_append_of_le_length (Nat.le_of_lt hcase),
        List.drop_append_of_le_length (Nat.succ_le_of_lt hcase)]
      simp
    rw [hval, hset, List.dropLast_concat]
    have hL : L = L.take i ++ L.get ⟨i, hcase⟩ :: L.drop (i + 1) := by
      conv_lhs => rw [← List.take_append_drop i L]
      rw [List.drop_eq_getElem_cons hcase]
      rfl
    have e1 : L ++ [a] = L.take i ++ L.get ⟨i, hcase⟩ :: (L.drop (i + 1) ++ [a]) := by
      conv_lhs => rw [hL]
      simp only [List.append_assoc, List.cons_append]
    have p1 : List.Perm (L.take i ++ L.get ⟨i, hcase⟩ :: (L.drop (i + 1) ++ [a]))
        (L.get ⟨i, hcase⟩ :: (L.take i ++ (L.drop (i + 1) ++ [a]))) :=
      List.perm_middle
    have p2 : List.Perm (L.take i ++ (L.drop (i + 1) ++ [a]))
        (L.take i ++ (a :: L.drop (i + 1))) :=
      List.Perm.append_left _ (List.perm_append_singleton a _)
    rw [e1]
    exact p1.trans (List.Perm.cons _ p2)
  · have hieq : i = L.length := Nat.le_antisymm (Nat.lt_succ_iff.mp hilt) hcase
    subst hieq
    have hval : (L ++ [a]).getD L.length 0 = a := by
      rw [List.getD_eq_getElem?_getD]
      simp
    have hset : (L ++ [a]).set L.length a = L ++ [a] := by
      rw [List.set_eq_take_cons_drop a (by simp), List.take_left,
        List.drop_eq_nil_of_le (by simp)]
    rw [hval, hset, List.dropLast_concat]
    exact List.perm_append_singleton a L

/-- Drawing a pool dry (as many draws as the pool has elements): the
drawn cards are a permutation of the pool, and the pool is left
empty. -/
lemma drawMany_perm (rng : ℕ → ℕ) :
    ∀ (n : ℕ) (deck : List ℕ) (k : ℕ), deck.length = n →
      deck.Perm ((drawMany deck rng k n).1) ∧ (drawMany deck rng k n).2.1 = [] := by
  intro n
  induction n with
  | zero =>
    intro deck k h
    have hnil : deck = [] := List.length_eq_zero.mp h
    subst hnil
    exact ⟨List.Perm.refl _, rfl⟩
  | succ m ih =>
    intro deck k h
    have hne : deck ≠ [] := by
      intro hh
      subst hh
      simp at h
    have hperm := draw_perm deck (rng k) hne
    have hlen : (draw deck (rng k)).2.length = m := by
      have h2 := hperm.length_eq
      rw [List.length_cons] at h2
      omega
    obtain ⟨ih1, ih2⟩ := ih (draw deck (rng k)).2 (k + 1) hlen
    constructor
    · show deck.Perm
        ((draw deck (rng k)).1 :: (drawMany (draw deck (rng k)).2 rng (k + 1) m).1)
      exact hperm.trans (List.Perm.cons _ ih1)
    · show (drawMany (draw deck (rng k)).2 rng (k + 1) m).2.1 = []
      exact ih2

/-- C4: each `draw` removes and returns one element of the current pool
and shrinks it by exactly one; and `N` successive draws from a pool of
`N` distinct cards (no insertions in between) yield `N` pairwise
distinct values covering exactly the pool's initial contents, leaving
the pool empty. -/
theorem draw_spec (deck : List ℕ) (rng : ℕ → ℕ) (k r : ℕ)
    (hne : deck ≠ []) (hnd : deck.Nodup) :
    ((draw deck r).1 ∈ deck
      ∧ (draw deck r).2.length = deck.length - 1
      ∧ deck.Perm ((draw deck r).1 :: (draw deck r).2))
  ∧ ((drawMany deck rng k deck.length).1.Perm deck
      ∧ (drawMany deck rng k deck.length).1.Nodup
      ∧ (drawMany deck rng k deck.length).2.1 = []) := by
  obtain ⟨hp, hf⟩ := drawMany_perm rng deck.length deck k rfl
  have hperm := draw_perm deck r hne
  have hlen : (draw deck r).2.length = deck.length - 1 := by
    have h2 := hperm.length_eq
    rw [List.length_cons] at h2
    omega
  exact ⟨⟨hperm.mem_iff.mpr (List.mem_cons_self _ _), hlen, hperm⟩,
    hp.symm, hp.nodup hnd, hf⟩

/-- Witness for C4 on the pool `[1, 2, 3]`. -/
theorem draw_spec_witness :
    ((draw [1, 2, 3] 2).1 ∈ [1, 2, 3]
      ∧ (draw [1, 2, 3] 2).2.length = [1, 2, 3].length - 1
      ∧ List.Perm [1, 2, 3] ((draw [1, 2, 3] 2).1 :: (draw [1, 2, 3] 2).2))
  ∧ ((drawMany [1, 2, 3] (fun n => n) 0 [1, 2, 3].length).1.Perm [1, 2, 3]
      ∧ (drawMany [1, 2, 3] (fun n => n) 0 [1, 2, 3].length).1.Nodup
      ∧ (drawMany [1, 2, 3] (fun n => n) 0 [1, 2, 3].length).2.1 = []) :=
  draw_spec [1, 2, 3] (fun n => n) 0 2 (by decide) (by decide)

/-- Membership in the materialized pool: exactly the 1-indexed cards
whose mask entry is set. -/
lemma simDeck_mem (mask : List Bool) (c : ℕ) :
    c ∈ simDeck mask ↔ 1 ≤ c ∧ c ≤ NUM_DECK ∧ mask.getD (c - 1) false = true := by
  simp only [simDeck, List.mem_map, List.mem_filter, List.mem_range]
  constructor
  · rintro ⟨i, ⟨hi, hm⟩, rfl⟩
    exact ⟨by omega, by omega, by simpa using hm⟩
  · rintro ⟨h1, h2, hm⟩
    exact ⟨c - 1, ⟨by omega, hm⟩, by omega⟩

/-- The materialized pool lists each available card once. -/
lemma simDeck_nodup (mask : List Bool) : (simDeck mask).Nodup := by
  refine List.Nodup.map (fun x y h => by omega) ?_
  exact (List.nodup_range NUM_DECK).filter _

/-- C5: the freshly materialized remaining-deck pool contains exactly
the card identifiers whose mask entry is still set (i.e. the cards not
in the used set), each appearing once; consequently it is disjoint from
the agent's hole cards and the known community cards, all of which are
marked used (mask entry cleared) by the game-state invariant. -/
theorem simDeck_spec (mask : List Bool) (hand community : List ℕ) (c : ℕ)
    (hh : ∀ x ∈ hand, mask.getD (x - 1) false = false)
    (hc : ∀ x ∈ community, mask.getD (x - 1) false = false) :
    (c ∈ simDeck mask ↔ 1 ≤ c ∧ c ≤ NUM_DECK ∧ mask.getD (c - 1) false = true)
  ∧ (simDeck mask).Nodup
  ∧ hand.Disjoint (simDeck mask)
  ∧ community.Disjoint (simDeck mask) := by
  refine ⟨simDeck_mem mask c, simDeck_nodup mask, ?_, ?_⟩
  · intro x hx hx2
    have hm := ((simDeck_mem mask x).mp hx2).2.2
    rw [hh x hx] at hm
    exact Bool.false_ne_true hm
  · intro x hx hx2
    have hm := ((simDeck_mem mask x).mp hx2).2.2
    rw [hc x hx] at hm
    exact Bool.false_ne_true hm

/-- Witness for C5: first two cards marked used, card 3 available. -/
theorem simDeck_spec_witness :
    (3 ∈ simDeck ([false, false] ++ List.replicate 50 true) ↔
      1 ≤ 3 ∧ 3 ≤ NUM_DECK ∧
        ([false, false] ++ List.replicate 50 true).getD (3 - 1) false = true)
  ∧ (simDeck ([false, false] ++ List.replicate 50 true)).Nodup
  ∧ List.Disjoint [1, 2] (simDeck ([false, false] ++ List.replicate 50 true))
  ∧ List.Disjoint ([] : List ℕ) (simDeck ([false, false] ++ List.replicate 50 true)) :=
  simDeck_spec ([false, false] ++ List.replicate 50 true) [1, 2] [] 3 (by decide) (by decide)

/-- The running maximum of `BestOpponentHand` never decreases below its
accumulator. -/
lemma bestOpponent_foldl_le (eval : List ℕ → ℤ) (opponents : List (List ℕ)) :
    ∀ acc : ℤ,
      acc ≤ opponents.foldl (fun m h => if eval h > m then eval h else m) acc := by
  induction opponents with
  | nil => intro acc; exact le_refl _
  | cons p t ih =>
    intro acc
    refine le_trans ?_ (ih (if eval p > acc then eval p else acc))
    split <;> omega

/-- Every opponent's score is bounded by the running maximum. -/
lemma bestOpponent_foldl_mem_le (eval : List ℕ → ℤ) (opponents : List (List ℕ)) :
    ∀ acc : ℤ, ∀ o ∈ opponents,
      eval o ≤ opponents.foldl (fun m h => if eval h > m then eval h else m) acc := by
  induction opponents with
  | nil =>
    intro acc o ho
    exact absurd ho (List.not_mem_nil o)
  | cons p t ih =>
    intro acc o ho
    rcases List.mem_cons.mp ho with h | h
    · subst h
      refine le_trans ?_ (bestOpponent_foldl_le eval t (if eval o > acc then eval o else acc))
      split <;> omega
    · exact ih (if eval p > acc then eval p else acc) o h

/-- The running maximum is either the accumulator or one of the
scores. -/
lemma bestOpponent_foldl_cases (eval : List ℕ → ℤ) (opponents : List (List ℕ)) :
    ∀ acc : ℤ,
      opponents.foldl (fun m h => if eval h > m then eval h else m) acc = acc
      ∨ ∃ o ∈ opponents,
          opponents.foldl (fun m h => if eval h > m then eval h else m) acc = eval o := by
  induction opponents with
  | nil => intro acc; exact Or.inl rfl
  | cons p t ih =>
    intro acc
    rcases ih (if eval p > acc then eval p else acc) with h | ⟨o, ho, h⟩
    · by_cases he : eval p > acc
      · refine Or.inr ⟨p, List.mem_cons_self p t, ?_⟩
        rw [List.foldl_cons, h, if_pos he]
      · refine Or.inl ?_
        rw [List.foldl_cons, h, if_neg he]
    · exact Or.inr ⟨o, List.mem_cons_of_mem p ho, by rw [List.foldl_cons, h]⟩

/-- C2: a simulated single game is a win exactly when the agent's score
strictly exceeds every opponent's score (= the maximum opponent score,
the hand list being non-empty and the evaluator non-negative), and a
tie with the best opponent — indeed, with any opponent — counts as a
loss. -/
theorem SimulateSingleGame_win_iff (eval : List ℕ → ℤ) (g : GameState) (rng : ℕ → ℕ)
    (hopp : simOpponents g rng ≠ [])
    (hnn : ∀ h : List ℕ, 0 ≤ eval h) :
    (SimulateSingleGame eval g rng = AI_WIN ↔
      ∀ o ∈ simOpponents g rng, eval o < eval (agentCards g rng))
  ∧ ((∃ o ∈ simOpponents g rng, eval o = eval (agentCards g rng)) →
      SimulateSingleGame eval g rng = AI_LOSE) := by
  have hgame : SimulateSingleGame eval g rng =
      if eval (agentCards g rng) > BestOpponentHand eval (simOpponents g rng)
      then AI_WIN else AI_LOSE := rfl
  constructor
  · constructor
    · intro hw o ho
      have hcond : eval (agentCards g rng) > BestOpponentHand eval (simOpponents g rng) := by
        by_contra hcon
        rw [hgame, if_neg hcon] at hw
        exact absurd hw (by decide)
      exact lt_of_le_of_lt (bestOpponent_foldl_mem_le eval (simOpponents g rng) 0 o ho) hcond
    · intro hall
      have hcond : BestOpponentHand eval (simOpponents g rng) < eval (agentCards g rng) := by
        rcases bestOpponent_foldl_cases eval (simOpponents g rng) 0 with h0 | ⟨o, ho, he⟩
        · obtain ⟨o, ho⟩ := List.exists_mem_of_ne_nil (simOpponents g rng) hopp
          have : BestOpponentHand eval (simOpponents g rng) = 0 := h0
          rw [this]
          exact lt_of_le_of_lt (hnn o) (hall o ho)
        · have : BestOpponentHand eval (simOpponents g rng) = eval o := he
          rw [this]
          exact hall o ho
      rw [hgame, if_pos hcond]
  · rintro ⟨o, ho, he⟩
    have hle : eval (agentCards g rng) ≤ BestOpponentHand eval (simOpponents g rng) :=
      he ▸ bestOpponent_foldl_mem_le eval (simOpponents g rng) 0 o ho
    rw [hgame, if_neg (not_lt.mpr hle)]

/-- A concrete game state: hole cards 1 and 2, no community cards yet,
cards 1 and 2 marked used, one opponent. -/
def sampleState : GameState :=
  { hand := [1, 2], community := [], deck := [false, false] ++ List.replicate 50 true,
    num_opponents := 1, stack := 100, your_turn := true }

/-- Witness for C2 with the length evaluator (all 7-card hands tie, so
the game is a loss). -/
theorem SimulateSingleGame_win_iff_witness :
    (SimulateSingleGame (fun l => (l.length : ℤ)) sampleState (fun _ => 0) = AI_WIN ↔
      ∀ o ∈ simOpponents sampleState (fun _ => 0),
        (fun l : List ℕ => (l.length : ℤ)) o <
          (fun l : List ℕ => (l.length : ℤ)) (agentCards sampleState (fun _ => 0)))
  ∧ ((∃ o ∈ simOpponents sampleState (fun _ => 0),
        (fun l : List ℕ => (l.length : ℤ)) o =
          (fun l : List ℕ => (l.length : ℤ)) (agentCards sampleState (fun _ => 0))) →
      SimulateSingleGame (fun l => (l.length : ℤ)) sampleState (fun _ => 0) = AI_LOSE) :=
  SimulateSingleGame_win_iff (fun l => (l.length : ℤ)) sampleState (fun _ => 0)
    (by decide) (fun h => Int.natCast_nonneg h.length)

end CPokerAI
